import Mathlib

/-!
Verification development for `pynets/stats/netmotifs.py`.

The module is embedded shallowly: the adjacency matrix of the (binarized)
graph is a function `A : Nat → Nat → Bool` together with an explicit
dimension `M` (only entries with both indices below `M` are ever consulted);
weighted matrices are functions into `ℚ` (edge weights are only ever
compared, never rounded through binary floating point, so `ℚ` is an
order-faithful stand-in for the `float64` entries).
-/

namespace NetMotifs

/-! ### countmotifs (netmotifs.py lines 18–62)

`countmotifs` grows vertex subsets one vertex at a time.  `vsubRoot` is
`vsub[0]`, the first (and, invariantly, minimal) member of a subset.
-/

/-- `vsub[0]` of a grown subset; the subsets built by the algorithm are
nonempty, so the default value is never consulted. -/
def vsubRoot (l : List Nat) : Nat := l.headD 0

/-- The candidate extensions of the subset `l`: the code computes
`idx = np.where(np.any(A[(vsub[0]+1):, vsub], 1))[0] + vsub[0] + 1` and then
keeps only `idx` entries that are not already in `vsub`: indices
`j` with `vsub[0] < j < M`, adjacent to some member of `vsub` (row `j`,
column `v`), and not a member of `vsub`. -/
def extensions (A : Nat → Nat → Bool) (M : Nat) (l : List Nat) : List Nat :=
  (List.range M).filter
    (fun j => decide (vsubRoot l < j) && l.any (fun v => A j v) && !(decide (j ∈ l)))

/-- One growth step: every subset in `X` is extended by every candidate in
`extensions`; the code appends `np.append(vsub, ik)` for each `ik` and
`np.vstack`s the results (the `len(idx) > 0` guard only skips empty blocks,
which the flattening makes irrelevant). -/
def grow (A : Nat → Nat → Bool) (M : Nat) (X : List (List Nat)) : List (List Nat) :=
  X.flatMap (fun l => (extensions A M l).map (fun j => l ++ [j]))

/-- The initial population `X2 = np.array([[k] for k in range(A.shape[0]-1)])`:
all singletons with index below `M - 1`. -/
def seeds (M : Nat) : List (List Nat) := (List.range (M - 1)).map (fun k => [k])

/-- The population after `n` growth steps (`n` runs over `range(N-1)` in the
code). -/
def growIter (A : Nat → Nat → Bool) (M : Nat) : Nat → List (List Nat)
  | 0 => seeds M
  | n + 1 => grow A M (growIter A M n)

/-- `np.sort(X2, 1)`: each row sorted ascending. -/
def sortRow (l : List Nat) : List Nat := l.insertionSort (· ≤ ·)

/-- The deduplication step: rows are sorted, then exact duplicate rows are
dropped (`np.unique` over the byte view of each sorted row); only the set of
surviving rows matters to the final `Counter`, not their order. -/
def uniqueRows (X : List (List Nat)) : List (List Nat) := (X.map sortRow).dedup

/-- One row sum of the induced submatrix `A[x, :][:, x]`: the number of
members `u` of `x` with `A v u` set (the diagonal entry is included, exactly
as `np.sum` includes it). -/
def inducedDegree (A : Nat → Nat → Bool) (x : List Nat) (v : Nat) : Nat :=
  (x.filter (fun u => A v u)).length

/-- The signature key of a subset `x`:
`''.join(np.sort(np.sum(A[x,:][:,x], 1)).astype(int).astype(str))`. -/
def signature (A : Nat → Nat → Bool) (x : List Nat) : String :=
  String.join (((x.map (inducedDegree A x)).insertionSort (· ≤ ·)).map (fun d => toString d))

/-- Result of `countmotifs`: either the integer sentinel `0` (returned when a
growth step produces no candidates) or the `Counter`, represented by the list
of signature keys of the deduplicated subsets (the `Counter` is exactly the
multiset of these keys). -/
inductive CMResult where
  | intZero : CMResult
  | counter (keys : List String) : CMResult
deriving DecidableEq

/-- The multiset of signature keys tallied by the final `Counter`. -/
def motifKeys (A : Nat → Nat → Bool) (M N : Nat) : List String :=
  (uniqueRows (growIter A M (N - 1))).map (signature A)

/-- `countmotifs(A, N)`.  The leading `assert N in [3, 4]` is modelled by the
`Except.error` branch.  The code checks `len(X2) > 0` after every growth step
and returns the integer `0` as soon as a step yields nothing; since growing an
empty population again yields an empty population, that early return fires at
some step iff the final population is empty. -/
def countmotifs (A : Nat → Nat → Bool) (M N : Nat) : Except String CMResult :=
  if N = 3 ∨ N = 4 then
    if (growIter A M (N - 1)).isEmpty then Except.ok CMResult.intZero
    else Except.ok (CMResult.counter (motifKeys A M N))
  else Except.error "Only motifs of size N=3,4 currently supported"

/-- The keys of the returned `Counter` (empty for the integer sentinel `0`,
whose `Counter`-as-mapping reading assigns every class the count `0`). -/
def keysOf (A : Nat → Nat → Bool) (M N : Nat) : List String :=
  match countmotifs A M N with
  | Except.ok (CMResult.counter keys) => keys
  | _ => []

/-- The count `countmotifs(A, N)[s]` of one signature class. -/
def classCount (A : Nat → Nat → Bool) (M N : Nat) (s : String) : Nat :=
  (keysOf A M N).count s

/-! ### Connected vertex subsets (the specification side of C1/C5)

A finite vertex set `S` is connected in `A` when no nonempty proper subset
`T` of `S` is separated from the rest: some vertex of `S` outside `T` is
adjacent to a member of `T`.  For a finite graph this is the standard cut
characterization of connectivity of the induced subgraph. -/

/-- Connectivity of the subgraph induced by `S` (cut characterization). -/
def IsConn (A : Nat → Nat → Bool) (S : Finset Nat) : Prop :=
  ∀ T ∈ S.powerset, T.Nonempty → T ≠ S → ∃ j ∈ S, j ∉ T ∧ ∃ v ∈ T, A j v = true

instance (A : Nat → Nat → Bool) (S : Finset Nat) : Decidable (IsConn A S) := by
  unfold IsConn; infer_instance

/-- All connected vertex subsets of size `N` of the `M`-vertex graph `A`. -/
def connSubsets (A : Nat → Nat → Bool) (M N : Nat) : Finset (Finset Nat) :=
  (Finset.range M).powerset.filter (fun S => S.card = N ∧ IsConn A S)

/-- The signature class of a vertex set (its sorted induced-degree string). -/
def sigOf (A : Nat → Nat → Bool) (S : Finset Nat) : String :=
  signature A (S.sort (· ≤ ·))

/-- The lists the growth loop can produce: built from a singleton whose index
is below `M - 1` by repeatedly appending a vertex below `M` that is larger
than the root, new to the list, and adjacent to some member. -/
inductive Buildable (A : Nat → Nat → Bool) (M : Nat) : List Nat → Prop where
  | single (k : Nat) (hk : k < M - 1) : Buildable A M [k]
  | snoc (l : List Nat) (j : Nat) (hb : Buildable A M l) (hj : j < M)
      (hroot : vsubRoot l < j) (hmem : j ∉ l) (hadj : ∃ v ∈ l, A j v = true) :
      Buildable A M (l ++ [j])

/-! ### adaptivethresh (netmotifs.py lines 65–90) -/

/-- `adaptivethresh(in_mat, thr, mlib, N)`: binarize `in_mat > thr`, call
`countmotifs`, and project onto `mlib`.  A `Counter` returns `0` for absent
keys, so the `try` block succeeds and yields the per-class counts; for the
integer sentinel the subscription raises `TypeError` and the `except` branch
yields `np.zeros(len(mlib))`; the `assert` inside `countmotifs` fires outside
the `try` block and propagates. -/
def adaptivethresh (in_mat : Nat → Nat → ℚ) (M : Nat) (thr : ℚ) (mlib : List String)
    (N : Nat) : Except String (List Nat) :=
  match countmotifs (fun i j => decide (thr < in_mat i j)) M N with
  | Except.error e => Except.error e
  | Except.ok CMResult.intZero => Except.ok (mlib.map (fun _ => 0))
  | Except.ok (CMResult.counter keys) => Except.ok (mlib.map (fun k => keys.count k))

/-- The motif-class catalog `mlib` of `compare_motifs`. -/
def mlib4 : List String := ["1113", "1122", "1223", "2222", "2233", "3333"]

/-! ### The ranking step of compare_motifs (netmotifs.py lines 145–218)

After the per-threshold sweep, `compare_motifs` holds one row per distinct
threshold key.  After `df.drop(columns=['struct','func'])` a row consists of
exactly the 21 numeric columns below; the cosine/correlation distances are
external `scipy` computations whose values simply sit in the row, so the row
is modelled as a record of rational values. -/

/-- One derived-metric row of the candidate DataFrame (the 21 numeric columns
present when the code sorts and filters). -/
structure MotifRow where
  motif_dist : ℚ
  graph_dist_cosine : ℚ
  graph_dist_correlation : ℚ
  struct_func_3333 : ℚ
  struct_func_2233 : ℚ
  struct_func_2222 : ℚ
  struct_func_1223 : ℚ
  struct_func_1122 : ℚ
  struct_func_1113 : ℚ
  struct_3333 : ℚ
  func_3333 : ℚ
  struct_2233 : ℚ
  func_2233 : ℚ
  struct_2222 : ℚ
  func_2222 : ℚ
  struct_1223 : ℚ
  func_1223 : ℚ
  struct_1122 : ℚ
  func_1122 : ℚ
  struct_1113 : ℚ
  func_1113 : ℚ
deriving DecidableEq

/-- `df.sort_values(by=[...], ascending=[...])` comparison: lexicographic over
the listed columns, each compared ascending or descending per its flag. -/
def svLE {α : Type} : List ((α → ℚ) × Bool) → α → α → Bool
  | [], _, _ => true
  | (f, asc) :: rest, a, b =>
    if f a = f b then svLE rest a b
    else if asc then decide (f a < f b) else decide (f b < f a)

/-- The column list and ascending flags of the `df.sort_values` call at
netmotifs.py lines 209–215: `ascending=[True, True, False, False, ...]`, i.e.
`motif_dist` and `graph_dist_cosine` ascending and all remaining nineteen
columns descending. -/
def sortCols : List ((MotifRow → ℚ) × Bool) :=
  [(MotifRow.motif_dist, true), (MotifRow.graph_dist_cosine, true),
   (MotifRow.graph_dist_correlation, false),
   (MotifRow.struct_func_3333, false), (MotifRow.struct_func_2233, false),
   (MotifRow.struct_func_2222, false), (MotifRow.struct_func_1223, false),
   (MotifRow.struct_func_1122, false), (MotifRow.struct_func_1113, false),
   (MotifRow.struct_3333, false), (MotifRow.func_3333, false),
   (MotifRow.struct_2233, false), (MotifRow.func_2233, false),
   (MotifRow.struct_2222, false), (MotifRow.func_2222, false),
   (MotifRow.struct_1223, false), (MotifRow.func_1223, false),
   (MotifRow.struct_1122, false), (MotifRow.func_1122, false),
   (MotifRow.struct_1113, false), (MotifRow.func_1113, false)]

/-- The composite ranking key exactly as claim C2 states it: motif distance
ascending, then edge cosine distance DESCENDING, then edge correlation
distance descending, then the six per-class absolute differences descending
(3333, 2233, 2222, 1223, 1122, 1113), then the twelve raw struct/func counts
descending in the same class order.  This definition follows the claim text,
to be compared against `sortCols`, which follows the source. -/
def claimCols : List ((MotifRow → ℚ) × Bool) :=
  [(MotifRow.motif_dist, true), (MotifRow.graph_dist_cosine, false),
   (MotifRow.graph_dist_correlation, false),
   (MotifRow.struct_func_3333, false), (MotifRow.struct_func_2233, false),
   (MotifRow.struct_func_2222, false), (MotifRow.struct_func_1223, false),
   (MotifRow.struct_func_1122, false), (MotifRow.struct_func_1113, false),
   (MotifRow.struct_3333, false), (MotifRow.func_3333, false),
   (MotifRow.struct_2233, false), (MotifRow.func_2233, false),
   (MotifRow.struct_2222, false), (MotifRow.func_2222, false),
   (MotifRow.struct_1223, false), (MotifRow.func_1223, false),
   (MotifRow.struct_1122, false), (MotifRow.func_1122, false),
   (MotifRow.struct_1113, false), (MotifRow.func_1113, false)]

/-- The claim C2 ranking key amended no more than the counterexample forces:
identical to `claimCols` except that the edge cosine distance is compared
ascending, as the source's `ascending` list actually specifies. -/
def amendedCols : List ((MotifRow → ℚ) × Bool) := sortCols

/-- The ranking comparison as a relation, for use with `insertionSort`. -/
def rowRel {α : Type} (cols : List ((α → ℚ) × Bool)) (a b : α) : Prop := svLE cols a b = true

instance rowRelDecidable {α : Type} (cols : List ((α → ℚ) × Bool)) : DecidableRel (rowRel cols) :=
  fun a b => inferInstanceAs (Decidable (svLE cols a b = true))

/-- The ranking produced by the `df.sort_values` call (sorting is modelled by
a sort that is correct for the comparison; the claim concerns the ordering
criterion, not the sorting algorithm). -/
def rankRows (rows : List MotifRow) : List MotifRow := List.insertionSort (rowRel sortCols) rows

/-! ### The candidate filtering and quartile cut (netmotifs.py lines 147–239) -/

/-- One threshold candidate of the sweep: its DataFrame index key (the
`'thr-...'` string), the threshold parsed back from that key by
`float(key.split('-')[-1])`, its `motif_dist` (`none` models `NaN`, dropped
by `df[pd.notnull(df['motif_dist'])]`), and its derived-metric row. -/
structure Cand where
  key : String
  thr : ℚ
  dist? : Option ℚ
  row : MotifRow
deriving DecidableEq

/-- `df[pd.notnull(df['motif_dist'])]`: candidates with an undefined motif
distance are dropped; the surviving rows carry their defined distance. -/
def dropNa (cs : List Cand) : List Cand :=
  cs.filterMap (fun c => c.dist?.map (fun d => { c with row := { c.row with motif_dist := d } }))

/-- `(df == 0).all(axis=1)` over the 21 numeric columns. -/
def isZeroRow (r : MotifRow) : Bool := (sortCols.map Prod.fst).all (fun f => decide (f r = 0))

/-- `df = df[pd.notnull(df['motif_dist'])]` followed by
`df = df.loc[~(df == 0).all(axis=1)]`. -/
def survivors (cs : List Cand) : List Cand := (dropNa cs).filter (fun c => !(isZeroRow c.row))

/-- The sort columns lifted to candidates (sorting compares the rows). -/
def candCols : List ((Cand → ℚ) × Bool) := sortCols.map (fun p => (fun c => p.1 c.row, p.2))

/-- The sorted candidate DataFrame. -/
def rankCands (cs : List Cand) : List Cand := List.insertionSort (rowRel candCols) cs

/-- `df.head(int(0.25 * len(df)))`: `0.25 * len(df)` is exact in binary
floating point and `int` truncates, so the retained count is `len / 4` in
natural-number division. -/
def retainedCands (cs : List Cand) : List Cand :=
  (rankCands (survivors cs)).take ((survivors cs).length / 4)

/-! ### build_mx_multigraph (netmotifs.py lines 242–266) and the output loop
(lines 219–239)

The multinetx `MultilayerGraph` object is modelled structurally: the two
layer adjacency matrices and the inter-layer coupling block
`adj_block[0:N, N:2N] = identity(N)` symmetrized.  Pickling the object to
disk is external persistence and not modelled. -/

structure Multiplex where
  layerSize : Nat
  layer1 : Nat → Nat → ℚ
  layer2 : Nat → Nat → ℚ
  interAdj : Nat → Nat → Bool
  mxName : String

/-- `build_mx_multigraph(func_mat, struct_mat, name, namer_dir)`: layer 1 is
the structural graph, layer 2 the functional graph, and the inter-layer
adjacency couples vertex `i` of layer 1 with vertex `i` of layer 2 only. -/
def build_mx_multigraph (func_mat struct_mat : Nat → Nat → ℚ) (n : Nat) (nm : String) :
    Multiplex :=
  { layerSize := n
    layer1 := struct_mat
    layer2 := func_mat
    interAdj := fun i j => decide (i < n ∧ j = i + n) || decide (j < n ∧ i = j + n)
    mxName := nm }

/-- `mat[mat < thr] = 0` on a copy: entries strictly below the threshold are
zeroed, all others kept. -/
def threshBelowZero (mat : Nat → Nat → ℚ) (thr : ℚ) : Nat → Nat → ℚ :=
  fun i j => if mat i j < thr then 0 else mat i j

/-- The output loop of `compare_motifs` (lines 222–239): for every retained
DataFrame key (paired here with the threshold parsed back from it), the code
appends the zero-below-threshold copies of both matrices to `best_mats`, but
passes the UNTHRESHOLDED `func_mat`, `struct_mat` to `build_mx_multigraph`;
both result lists are keyed by `str(func_thr)`.  Returns
(`mg_dict`, `g_dict`). -/
def compareLoop (func_mat struct_mat : Nat → Nat → ℚ) (n : Nat)
    (keys : List (String × ℚ)) :
    List (String × Multiplex) × List (String × ((Nat → Nat → ℚ) × (Nat → Nat → ℚ))) :=
  (keys.map (fun kt => (toString kt.2, build_mx_multigraph func_mat struct_mat n kt.1)),
   keys.map (fun kt =>
     (toString kt.2, (threshBelowZero func_mat kt.2, threshBelowZero struct_mat kt.2))))

/-! ### Community alignment in motif_matching (netmotifs.py lines 348–354)

`community_resolution_selection` and sklearn's `cosine_similarity` are
external collaborators: the community membership vectors and the similarity
matrix they produce are inputs to this segment.  The code then computes
`np.argmax(sims, axis=0)[0]` — the row index maximizing column 0 of `sims` —
and indexes BOTH `struct_comms` and `func_comms` with it, and builds
`comm_mask = np.equal.outer(struct_comm, func_comm)`. -/

/-- `np.argmax` over a vector: the first index attaining the maximum. -/
def argmaxIdx (xs : List ℚ) : Nat :=
  (List.range xs.length).foldl (fun best i => if xs.getD best 0 < xs.getD i 0 then i else best) 0

/-- Entry `sims[i][j]`. -/
def simsEntry (sims : List (List ℚ)) (i j : Nat) : ℚ := (sims.getD i []).getD j 0

/-- `np.argmax(sims, axis=0)[0]`: the argmax of column 0 of `sims`. -/
def selIdx (sims : List (List ℚ)) : Nat := argmaxIdx (sims.map (fun r => r.getD 0 0))

/-- `np.equal.outer(struct_comm, func_comm)` on boolean membership vectors:
entry `(i, j)` is set iff the two membership bits are EQUAL (so it is also
set when neither vertex is a member). -/
def commMask (sc fc : List Bool) (i j : Nat) : Bool := sc.getD i false == fc.getD j false

/-- `mat[~comm_mask] = 0`. -/
def applyCommMask (sc fc : List Bool) (mat : Nat → Nat → ℚ) : Nat → Nat → ℚ :=
  fun i j => if commMask sc fc i j = true then mat i j else 0

/-! ### The threshold sweep keys of compare_motifs (lines 117, 131–143)

Candidate records are stored in Python dicts keyed by
`'thr-' + str(np.round(thr_func, 4))`; an assignment to an existing key
overwrites the stored record in place.  The numeric part of the key is
rendered canonically from the rounded rational (Python's `str` of the
rounded float is likewise injective on distinct rounded values, so key
collisions coincide). -/

/-- Round half to even (the rounding `np.round` applies), at integer
resolution. -/
def roundHalfEven (q : ℚ) : ℤ :=
  if q - ⌊q⌋ < 1 / 2 then ⌊q⌋
  else if 1 / 2 < q - ⌊q⌋ then ⌊q⌋ + 1
  else if ⌊q⌋ % 2 = 0 then ⌊q⌋ else ⌊q⌋ + 1

/-- `np.round(q, 4)`. -/
def round4 (q : ℚ) : ℚ := (roundHalfEven (q * 10000) : ℚ) / 10000

/-- The dict key `"%s%s" % ('thr-', np.round(thr_func, 4))`. -/
def thrKey (q : ℚ) : String := "thr-" ++ toString (round4 q)

/-- Python dict assignment `d[k] = v`: overwrite in place if the key exists,
else append. -/
def upsert {V : Type} (k : String) (v : V) : List (String × V) → List (String × V)
  | [] => [(k, v)]
  | kv :: rest => if kv.1 = k then (k, v) :: rest else kv :: upsert k v rest

/-- The per-threshold record dict built by the sweep loop: one
`d[thrKey t] = rec t` assignment per swept threshold, in sweep order. -/
def sweepDict {V : Type} (rec : ℚ → V) (thrs : List ℚ) : List (String × V) :=
  thrs.foldl (fun d t => upsert (thrKey t) (rec t) d) []

/-- `np.linspace(a, b, n)`: `n` evenly spaced values from `a` to `b`
(for `n = 1`, the single value `a`; division by zero in `ℚ` yields `0`,
matching numpy's single-point behaviour). -/
def linspace (a b : ℚ) (n : Nat) : List ℚ :=
  (List.range n).map (fun (i : Nat) => a + (b - a) * (i : ℚ) / ((n : ℚ) - 1))

/-! ### Concrete inputs used by witnesses and counterexamples -/

/-- The path graph 0–1–2 (symmetric by construction). -/
def pathA : Nat → Nat → Bool := fun i j => decide (i + j = 1 ∨ i + j = 3)

/-- A zero matrix. -/
def zeroMat : Nat → Nat → ℚ := fun _ _ => 0

/-- A 2×2 symmetric matrix with a single off-diagonal weight 2. -/
def twoMat : Nat → Nat → ℚ :=
  fun i j => if (i = 0 ∧ j = 1) ∨ (i = 1 ∧ j = 0) then 2 else 0

/-- A derived-metric row that is zero except for its motif distance. -/
def rowOf (d : ℚ) : MotifRow :=
  ⟨d, 0, 0, 0, 0, 0, 0, 0, 0, 0, 0, 0, 0, 0, 0, 0, 0, 0, 0, 0, 0⟩

/-- Two rows tied on motif distance and differing on the edge cosine
distance. -/
def rowCosOf (d c : ℚ) : MotifRow :=
  ⟨d, c, 0, 0, 0, 0, 0, 0, 0, 0, 0, 0, 0, 0, 0, 0, 0, 0, 0, 0, 0⟩

/-- Three surviving candidates (fewer than four). -/
def candsEx : List Cand :=
  [⟨"thr-1.0", 1, some 1, rowOf 1⟩,
   ⟨"thr-2.0", 2, some 2, rowOf 2⟩,
   ⟨"thr-3.0", 3, some 3, rowOf 3⟩]

/-- Similarity matrix whose global maximum is at (1,1) while column 0 is
maximized at row 0. -/
def simsEx : List (List ℚ) := [[9, 1], [8, 10]]

/-- Structural community membership vectors for the `simsEx` scenario. -/
def structCommsEx : List (List Bool) := [[true, false, false], [false, true, true]]

/-- Functional community membership vectors for the `simsEx` scenario. -/
def funcCommsEx : List (List Bool) := [[false, true, false], [true, false, true]]

/-! ## Theorems -/


theorem mem_extensions {A : Nat → Nat → Bool} {M : Nat} {l : List Nat} {j : Nat} :
    j ∈ extensions A M l ↔
      j < M ∧ vsubRoot l < j ∧ (∃ v ∈ l, A j v = true) ∧ j ∉ l := by
  simp [extensions, List.mem_filter, List.any_eq_true, and_assoc]

theorem mem_grow {A : Nat → Nat → Bool} {M : Nat} {X : List (List Nat)} {l2 : List Nat} :
    l2 ∈ grow A M X ↔ ∃ l ∈ X, ∃ j, j ∈ extensions A M l ∧ l2 = l ++ [j] := by
  simp only [grow, List.mem_flatMap, List.mem_map]
  constructor
  · rintro ⟨l, hl, j, hj, rfl⟩
    exact ⟨l, hl, j, hj, rfl⟩
  · rintro ⟨l, hl, j, hj, rfl⟩
    exact ⟨l, hl, j, hj, rfl⟩

theorem vsubRoot_append {l : List Nat} (j : Nat) (h : l ≠ []) :
    vsubRoot (l ++ [j]) = vsubRoot l := by
  cases l with
  | nil => exact absurd rfl h
  | cons a t => rfl

theorem vsubRoot_mem {l : List Nat} (h : l ≠ []) : vsubRoot l ∈ l := by
  cases l with
  | nil => exact absurd rfl h
  | cons a t => exact List.mem_cons_self a t

theorem Buildable.ne_nil {A : Nat → Nat → Bool} {M : Nat} {l : List Nat}
    (hb : Buildable A M l) : l ≠ [] := by
  induction hb with
  | single k hk => simp
  | snoc l j hb hj hroot hmem hadj ih => simp

theorem Buildable.nodup {A : Nat → Nat → Bool} {M : Nat} {l : List Nat}
    (hb : Buildable A M l) : l.Nodup := by
  induction hb with
  | single k hk => simp
  | snoc l j hb hj hroot hmem hadj ih =>
    rw [List.nodup_append]
    exact ⟨ih, List.nodup_singleton j,
      fun a ha hj2 => hmem ((List.mem_singleton.mp hj2) ▸ ha)⟩

theorem Buildable.lt_M {A : Nat → Nat → Bool} {M : Nat} {l : List Nat}
    (hb : Buildable A M l) : ∀ x ∈ l, x < M := by
  induction hb with
  | single k hk =>
    intro x hx
    rw [List.mem_singleton] at hx
    exact hx ▸ lt_of_lt_of_le hk (Nat.sub_le M 1)
  | snoc l j hb hj hroot hmem hadj ih =>
    intro x hx
    rcases List.mem_append.mp hx with h | h
    · exact ih x h
    · rw [List.mem_singleton] at h
      exact h ▸ hj

theorem Buildable.root_le {A : Nat → Nat → Bool} {M : Nat} {l : List Nat}
    (hb : Buildable A M l) : ∀ x ∈ l, vsubRoot l ≤ x := by
  induction hb with
  | single k hk =>
    intro x hx
    rw [List.mem_singleton] at hx
    exact le_of_eq (hx ▸ rfl)
  | snoc l j hb hj hroot hmem hadj ih =>
    intro x hx
    rw [vsubRoot_append j hb.ne_nil]
    rcases List.mem_append.mp hx with h | h
    · exact ih x h
    · rw [List.mem_singleton] at h
      exact h ▸ le_of_lt hroot

theorem mem_growIter {A : Nat → Nat → Bool} {M : Nat} :
    ∀ (n : Nat) (l : List Nat),
      l ∈ growIter A M n ↔ Buildable A M l ∧ l.length = n + 1 := by
  intro n
  induction n with
  | zero =>
    intro l
    constructor
    · intro hl
      simp only [growIter, seeds, List.mem_map, List.mem_range] at hl
      obtain ⟨k, hk, rfl⟩ := hl
      exact ⟨Buildable.single k hk, rfl⟩
    · rintro ⟨hb, hlen⟩
      cases hb with
      | single k hk =>
        simp only [growIter, seeds, List.mem_map, List.mem_range]
        exact ⟨k, hk, rfl⟩
      | snoc l j hb hj hroot hmem hadj =>
        rw [List.length_append, List.length_singleton] at hlen
        have hl0 : l.length = 0 := by omega
        exact absurd (List.length_eq_zero.mp hl0) hb.ne_nil
  | succ n ih =>
    intro l2
    rw [growIter, mem_grow]
    constructor
    · rintro ⟨l, hl, j, hj, rfl⟩
      obtain ⟨hb, hlen⟩ := (ih l).mp hl
      obtain ⟨hjM, hroot, hadj, hmem⟩ := mem_extensions.mp hj
      exact ⟨Buildable.snoc l j hb hjM hroot hmem hadj,
        by rw [List.length_append, List.length_singleton, hlen]⟩
    · rintro ⟨hb, hlen⟩
      cases hb with
      | single k hk => simp at hlen
      | snoc l j hb hjM hroot hmem hadj =>
        rw [List.length_append, List.length_singleton] at hlen
        refine ⟨l, (ih l).mpr ⟨hb, by omega⟩, j, mem_extensions.mpr ⟨hjM, hroot, hadj, hmem⟩, rfl⟩

theorem toFinset_snoc (l : List Nat) (j : Nat) :
    (l ++ [j]).toFinset = insert j l.toFinset := by
  rw [List.toFinset_append]
  simp [Finset.union_comm, Finset.insert_eq]

theorem Buildable.isConn {A : Nat → Nat → Bool} {M : Nat} {l : List Nat}
    (hsym : ∀ i j, i < M → j < M → A i j = A j i)
    (hb : Buildable A M l) : IsConn A l.toFinset := by
  induction hb with
  | single k hk =>
    intro T hT hTne hTns
    exfalso
    rw [Finset.mem_powerset] at hT
    simp only [List.toFinset_cons, List.toFinset_nil, insert_emptyc_eq] at hT hTns
    rcases Finset.subset_singleton_iff.mp hT with rfl | rfl
    · exact hTne.ne_empty rfl
    · exact hTns rfl
  | snoc l j hb hj hroot hmem hadj ih =>
    intro T hT hTne hTns
    rw [Finset.mem_powerset, toFinset_snoc] at hT
    rw [toFinset_snoc] at hTns ⊢
    have hjl : j ∉ l.toFinset := fun h => hmem (List.mem_toFinset.mp h)
    by_cases hjT : j ∈ T
    · -- j belongs to the cut side
      by_cases hT2 : (T.erase j).Nonempty
      · have hsub : T.erase j ⊆ l.toFinset := Finset.subset_insert_iff.mp hT
        have hns : T.erase j ≠ l.toFinset := by
          intro h
          apply hTns
          rw [← h, Finset.insert_erase hjT]
        obtain ⟨j2, hj2S, hj2T, v, hvT, hA⟩ :=
          ih (T.erase j) (Finset.mem_powerset.mpr hsub) hT2 hns
        refine ⟨j2, Finset.mem_insert_of_mem hj2S, ?_, v, Finset.mem_of_mem_erase hvT, hA⟩
        intro hc
        exact hj2T (Finset.mem_erase.mpr ⟨fun h => hjl (h ▸ hj2S), hc⟩)
      · -- T = {j}
        have hTj : T = {j} := by
          rw [Finset.not_nonempty_iff_eq_empty, Finset.erase_eq_empty_iff] at hT2
          rcases hT2 with rfl | h
          · exact absurd rfl hTne.ne_empty
          · exact h
        obtain ⟨v, hv, hAjv⟩ := hadj
        have hvM : v < M := hb.lt_M v hv
        refine ⟨v, Finset.mem_insert_of_mem (List.mem_toFinset.mpr hv), ?_, j, ?_, ?_⟩
        · rw [hTj, Finset.mem_singleton]
          exact fun h => hmem (h ▸ hv)
        · rw [hTj]; exact Finset.mem_singleton_self j
        · rw [← hsym j v hj hvM]; exact hAjv
    · -- j outside the cut side: T sits inside l.toFinset
      have hsub : T ⊆ l.toFinset := by
        intro x hx
        rcases Finset.mem_insert.mp (hT hx) with rfl | h
        · exact absurd hx hjT
        · exact h
      by_cases hTl : T = l.toFinset
      · obtain ⟨v, hv, hAjv⟩ := hadj
        exact ⟨j, Finset.mem_insert_self j _, hjT, v, hTl ▸ List.mem_toFinset.mpr hv, hAjv⟩
      · obtain ⟨j2, hj2S, hj2T, v, hvT, hA⟩ :=
          ih T (Finset.mem_powerset.mpr hsub) hTne hTl
        exact ⟨j2, Finset.mem_insert_of_mem hj2S, hj2T, v, hvT, hA⟩

theorem isConn_buildable {A : Nat → Nat → Bool} {M : Nat} {S : Finset Nat}
    (hS : S ⊆ Finset.range M) (hcard : 2 ≤ S.card) (hconn : IsConn A S) :
    ∃ l, Buildable A M l ∧ l.toFinset = S ∧ l.length = S.card := by
  have hne : S.Nonempty := Finset.card_pos.mp (lt_of_lt_of_le Nat.zero_lt_two hcard)
  set m := S.min' hne with hm
  have hmS : m ∈ S := S.min'_mem hne
  have hmM1 : m < M - 1 := by
    have hc1 : 1 < S.card := by omega
    obtain ⟨x, hxS, hxm⟩ := Finset.exists_ne_of_one_lt_card hc1 m
    have h1 : m ≤ x := S.min'_le x hxS
    have h2 : x < M := Finset.mem_range.mp (hS hxS)
    omega
  have aux : ∀ k, k + 1 ≤ S.card →
      ∃ l, Buildable A M l ∧ l.toFinset ⊆ S ∧ m ∈ l.toFinset ∧ l.length = k + 1 := by
    intro k
    induction k with
    | zero =>
      intro _
      refine ⟨[m], Buildable.single m hmM1, ?_, by simp, rfl⟩
      intro x hx
      simp only [List.toFinset_cons, List.toFinset_nil, insert_emptyc_eq,
        Finset.mem_singleton] at hx
      exact hx ▸ hmS
    | succ k ih =>
      intro hk1
      obtain ⟨l, hb, hsub, hmT, hlen⟩ := ih (by omega)
      have hTcard : l.toFinset.card = k + 1 := by
        rw [List.toFinset_card_of_nodup hb.nodup, hlen]
      have hTns : l.toFinset ≠ S := by
        intro h
        rw [h] at hTcard
        omega
      obtain ⟨j, hjS, hjT, v, hvT, hAjv⟩ :=
        hconn l.toFinset (Finset.mem_powerset.mpr hsub) ⟨m, hmT⟩ hTns
      have hroot : vsubRoot l < j := by
        have h1 : vsubRoot l ∈ l := vsubRoot_mem hb.ne_nil
        have h2 : vsubRoot l ≤ m := hb.root_le m (List.mem_toFinset.mp hmT)
        have h3 : m ≤ vsubRoot l := S.min'_le _ (hsub (List.mem_toFinset.mpr h1))
        have h4 : m ≤ j := S.min'_le j hjS
        have h5 : j ≠ m := fun h => hjT (h ▸ hmT)
        omega
      refine ⟨l ++ [j], Buildable.snoc l j hb (Finset.mem_range.mp (hS hjS)) hroot
        (fun h => hjT (List.mem_toFinset.mpr h)) ⟨v, List.mem_toFinset.mp hvT, hAjv⟩,
        ?_, ?_, ?_⟩
      · rw [toFinset_snoc]
        exact Finset.insert_subset hjS hsub
      · rw [toFinset_snoc]
        exact Finset.mem_insert_of_mem hmT
      · rw [List.length_append, List.length_singleton, hlen]
  obtain ⟨l, hb, hsub, hmT, hlen⟩ := aux (S.card - 1) (by omega)
  have hlen2 : l.length = S.card := by omega
  refine ⟨l, hb, ?_, hlen2⟩
  apply Finset.eq_of_subset_of_card_le hsub
  rw [List.toFinset_card_of_nodup hb.nodup, hlen2]

theorem sorted_nodup_eq_sort {l : List Nat} (hs : l.Sorted (· ≤ ·)) (hn : l.Nodup) :
    l.toFinset.sort (· ≤ ·) = l :=
  List.eq_of_perm_of_sorted
    (List.perm_of_nodup_nodup_toFinset_eq (Finset.sort_nodup _ _) hn
      (by rw [Finset.sort_toFinset]))
    (Finset.sort_sorted _ _) hs

theorem sortRow_perm (l : List Nat) : (sortRow l).Perm l := List.perm_insertionSort _ l

theorem sortRow_toFinset (l : List Nat) : (sortRow l).toFinset = l.toFinset :=
  List.toFinset_eq_of_perm _ _ (sortRow_perm l)

theorem sortRow_sorted (l : List Nat) : (sortRow l).Sorted (· ≤ ·) :=
  List.sorted_insertionSort _ l

theorem sortRow_eq_sort {l : List Nat} (hn : l.Nodup) :
    sortRow l = l.toFinset.sort (· ≤ ·) := by
  rw [← sortRow_toFinset l]
  exact (sorted_nodup_eq_sort (sortRow_sorted l) ((sortRow_perm l).nodup_iff.mpr hn)).symm

theorem mem_connSubsets {A : Nat → Nat → Bool} {M N : Nat} {S : Finset Nat} :
    S ∈ connSubsets A M N ↔ S ⊆ Finset.range M ∧ S.card = N ∧ IsConn A S := by
  simp [connSubsets, Finset.mem_filter, Finset.mem_powerset, and_assoc]

theorem mem_rows_iff {A : Nat → Nat → Bool} {M N : Nat}
    (hsym : ∀ i j, i < M → j < M → A i j = A j i) (hN2 : 2 ≤ N) {r : List Nat} :
    r ∈ (growIter A M (N - 1)).map sortRow ↔
      ∃ S ∈ connSubsets A M N, r = S.sort (· ≤ ·) := by
  have hN1 : N - 1 + 1 = N := by omega
  rw [List.mem_map]
  constructor
  · rintro ⟨l, hl, rfl⟩
    obtain ⟨hb, hlen⟩ := (mem_growIter _ l).mp hl
    rw [hN1] at hlen
    refine ⟨l.toFinset, mem_connSubsets.mpr ⟨?_, ?_, hb.isConn hsym⟩, ?_⟩
    · intro x hx
      exact Finset.mem_range.mpr (hb.lt_M x (List.mem_toFinset.mp hx))
    · rw [List.toFinset_card_of_nodup hb.nodup, hlen]
    · exact sortRow_eq_sort hb.nodup
  · rintro ⟨S, hS, rfl⟩
    obtain ⟨hsub, hcard, hconn⟩ := mem_connSubsets.mp hS
    obtain ⟨l, hb, hlT, hlen⟩ := isConn_buildable hsub (hcard ▸ hN2) hconn
    refine ⟨l, (mem_growIter _ l).mpr ⟨hb, by omega⟩, ?_⟩
    rw [sortRow_eq_sort hb.nodup, hlT]

theorem sort_inj : Function.Injective (fun S : Finset Nat => S.sort (· ≤ ·)) := by
  intro S T h
  have h2 := congrArg List.toFinset h
  simpa [Finset.sort_toFinset] using h2

theorem keysOf_eq {A : Nat → Nat → Bool} {M N : Nat} (hN : N = 3 ∨ N = 4) :
    keysOf A M N = motifKeys A M N := by
  unfold keysOf countmotifs
  rw [if_pos hN]
  by_cases h : (growIter A M (N - 1)).isEmpty
  · rw [if_pos h]
    have h2 : growIter A M (N - 1) = [] := List.isEmpty_iff.mp h
    simp [motifKeys, uniqueRows, h2]
  · rw [if_neg h]

theorem uniqueRows_toFinset {A : Nat → Nat → Bool} {M N : Nat}
    (hsym : ∀ i j, i < M → j < M → A i j = A j i) (hN2 : 2 ≤ N) :
    (uniqueRows (growIter A M (N - 1))).toFinset
      = (connSubsets A M N).image (fun S => S.sort (· ≤ ·)) := by
  ext r
  rw [uniqueRows, List.mem_toFinset, List.mem_dedup, mem_rows_iff hsym hN2, Finset.mem_image]
  constructor
  · rintro ⟨S, hS, rfl⟩
    exact ⟨S, hS, rfl⟩
  · rintro ⟨S, hS, rfl⟩
    exact ⟨S, hS, rfl⟩

theorem keysOf_length {A : Nat → Nat → Bool} {M N : Nat}
    (hsym : ∀ i j, i < M → j < M → A i j = A j i) (hN : N = 3 ∨ N = 4) :
    (keysOf A M N).length = (connSubsets A M N).card := by
  have hN2 : 2 ≤ N := by rcases hN with h | h <;> omega
  have hund : (uniqueRows (growIter A M (N - 1))).Nodup := List.nodup_dedup _
  rw [keysOf_eq hN, motifKeys, List.length_map,
    ← List.toFinset_card_of_nodup hund, uniqueRows_toFinset hsym hN2,
    Finset.card_image_of_injective _ sort_inj]

theorem classCount_eq {A : Nat → Nat → Bool} {M N : Nat}
    (hsym : ∀ i j, i < M → j < M → A i j = A j i) (hN : N = 3 ∨ N = 4) (s : String) :
    classCount A M N s = ((connSubsets A M N).filter (fun S => sigOf A S = s)).card := by
  have hN2 : 2 ≤ N := by rcases hN with h | h <;> omega
  rw [classCount, keysOf_eq hN, motifKeys, List.count_eq_countP, List.countP_map,
    List.countP_eq_length_filter]
  have hfnd : ((uniqueRows (growIter A M (N - 1))).filter
      ((fun a => a == s) ∘ signature A)).Nodup := (List.nodup_dedup _).filter _
  rw [← List.toFinset_card_of_nodup hfnd, List.toFinset_filter, uniqueRows_toFinset hsym hN2,
    Finset.filter_image, Finset.card_image_of_injective _ sort_inj]
  congr 1
  apply Finset.filter_congr
  intro S hS
  simp [sigOf, Function.comp]

/-- C1: for every binary symmetric adjacency matrix and motif size N ∈ {3, 4},
the sum over all classes of the counts returned by `countmotifs` equals the
number of distinct connected vertex subsets of size N (each connected subset
is counted once, in exactly one degree-signature class). -/
theorem C1_countmotifs_total (A : Nat → Nat → Bool) (M N : Nat)
    (hsym : ∀ i j, i < M → j < M → A i j = A j i) (hN : N = 3 ∨ N = 4) :
    ∑ s ∈ (keysOf A M N).toFinset, classCount A M N s = (connSubsets A M N).card := by
  have h1 : ∑ s ∈ (keysOf A M N).toFinset, (keysOf A M N).count s
      = (keysOf A M N).length := by
    have h2 := Multiset.toFinset_sum_count_eq (↑(keysOf A M N) : Multiset String)
    simpa using h2
  calc ∑ s ∈ (keysOf A M N).toFinset, classCount A M N s
      = (keysOf A M N).length := h1
    _ = (connSubsets A M N).card := keysOf_length hsym hN

/-- Witness for C1 at the path graph 0–1–2 with N = 3. -/
theorem C1_countmotifs_total_witness :
    (∀ i j, i < 3 → j < 3 → pathA i j = pathA j i) ∧
      ∑ s ∈ (keysOf pathA 3 3).toFinset, classCount pathA 3 3 s
        = (connSubsets pathA 3 3).card :=
  ⟨fun i j _ _ => by unfold pathA; rw [Nat.add_comm],
   C1_countmotifs_total pathA 3 3 (fun i j _ _ => by unfold pathA; rw [Nat.add_comm])
     (Or.inl rfl)⟩

/-- C9: for every motif size outside {3, 4}, `countmotifs` rejects the call
with the assertion error, for every adjacency matrix input. -/
theorem C9_size_assert (A : Nat → Nat → Bool) (M N : Nat) (hN : ¬(N = 3 ∨ N = 4)) :
    countmotifs A M N = Except.error "Only motifs of size N=3,4 currently supported" := by
  unfold countmotifs
  rw [if_neg hN]

/-- Witness for C9 at N = 5. -/
theorem C9_size_assert_witness :
    ¬(5 = 3 ∨ 5 = 4) ∧
      countmotifs pathA 3 5 = Except.error "Only motifs of size N=3,4 currently supported" :=
  ⟨by decide, C9_size_assert pathA 3 5 (by decide)⟩

/-- C6: for every matrix, threshold and catalog (and supported size),
`adaptivethresh` returns a vector of catalog length mapping each class to its
count (absent classes to 0), and an all-zero vector when the motif-counting
step returns the integer sentinel. -/
theorem C6_adaptivethresh_spec (in_mat : Nat → Nat → ℚ) (M : Nat) (thr : ℚ)
    (mlib : List String) (N : Nat) (hN : N = 3 ∨ N = 4) :
    ∃ v, adaptivethresh in_mat M thr mlib N = Except.ok v ∧
      v.length = mlib.length ∧
      v = mlib.map (fun k => classCount (fun i j => decide (thr < in_mat i j)) M N k) ∧
      (countmotifs (fun i j => decide (thr < in_mat i j)) M N = Except.ok CMResult.intZero →
        v = mlib.map (fun _ => 0)) := by
  set A := fun i j => decide (thr < in_mat i j) with hA
  by_cases h : (growIter A M (N - 1)).isEmpty
  · have hc : countmotifs A M N = Except.ok CMResult.intZero := by
      unfold countmotifs
      rw [if_pos hN, if_pos h]
    have hk : keysOf A M N = [] := by
      unfold keysOf
      rw [hc]
    refine ⟨mlib.map (fun _ => 0), ?_, by rw [List.length_map], ?_, fun _ => rfl⟩
    · simp only [adaptivethresh, hc]
    · simp [classCount, hk]
  · have hc : countmotifs A M N = Except.ok (CMResult.counter (motifKeys A M N)) := by
      unfold countmotifs
      rw [if_pos hN, if_neg h]
    have hk : keysOf A M N = motifKeys A M N := keysOf_eq hN
    refine ⟨mlib.map (fun k => (motifKeys A M N).count k), ?_, by rw [List.length_map], ?_, ?_⟩
    · simp only [adaptivethresh, hc]
    · simp [classCount, hk]
    · intro hcontra
      rw [hc] at hcontra
      simp at hcontra

/-- Witness for C6 at the zero matrix with N = 4 (a sentinel case). -/
theorem C6_adaptivethresh_spec_witness :
    (4 = 3 ∨ 4 = 4) ∧
      ∃ v, adaptivethresh zeroMat 2 0 mlib4 4 = Except.ok v ∧
        v.length = mlib4.length ∧
        v = mlib4.map (fun k => classCount (fun i j => decide ((0:ℚ) < zeroMat i j)) 2 4 k) ∧
        (countmotifs (fun i j => decide ((0:ℚ) < zeroMat i j)) 2 4
            = Except.ok CMResult.intZero → v = mlib4.map (fun _ => 0)) :=
  ⟨by decide, C6_adaptivethresh_spec zeroMat 2 0 mlib4 4 (by decide)⟩

theorem image_symm_image (π : Equiv.Perm ℕ) (T : Finset Nat) :
    (T.image π.symm).image π = T := by
  rw [Finset.image_image]
  simp [Equiv.self_comp_symm]

theorem image_image_symm (π : Equiv.Perm ℕ) (T : Finset Nat) :
    (T.image π).image π.symm = T := by
  rw [Finset.image_image]
  simp [Equiv.symm_comp_self]

theorem isConn_relabel (B : Nat → Nat → Bool) (π : Equiv.Perm ℕ) (S : Finset Nat)
    (h : IsConn (fun i j => B (π i) (π j)) S) : IsConn B (S.image π) := by
  intro T hT hTne hTns
  rw [Finset.mem_powerset] at hT
  have hT0sub : T.image π.symm ⊆ S := by
    intro x hx
    obtain ⟨y, hy, rfl⟩ := Finset.mem_image.mp hx
    obtain ⟨z, hz, rfl⟩ := Finset.mem_image.mp (hT hy)
    simpa using hz
  have hT0ne : (T.image π.symm).Nonempty := hTne.image _
  have hT0ns : T.image π.symm ≠ S := by
    intro h0
    apply hTns
    rw [← image_symm_image π T, h0]
  obtain ⟨j, hjS, hjT0, v, hvT0, hB⟩ :=
    h (T.image π.symm) (Finset.mem_powerset.mpr hT0sub) hT0ne hT0ns
  refine ⟨π j, Finset.mem_image_of_mem _ hjS, ?_, π v, ?_, hB⟩
  · intro hc
    exact hjT0 (Finset.mem_image.mpr ⟨π j, hc, Equiv.symm_apply_apply π j⟩)
  · obtain ⟨y, hy, hyv⟩ := Finset.mem_image.mp hvT0
    rw [← hyv, Equiv.apply_symm_apply]
    exact hy

theorem isConn_relabel_iff (B : Nat → Nat → Bool) (π : Equiv.Perm ℕ) (S : Finset Nat) :
    IsConn (fun i j => B (π i) (π j)) S ↔ IsConn B (S.image π) := by
  constructor
  · exact isConn_relabel B π S
  · intro h
    have hfun : (fun i j => B (π (π.symm i)) (π (π.symm j))) = B := by
      funext i j
      rw [Equiv.apply_symm_apply, Equiv.apply_symm_apply]
    have h2 := isConn_relabel (fun i j => B (π i) (π j)) π.symm (S.image π)
    rw [hfun, image_image_symm] at h2
    exact h2 h

theorem inducedDegree_eq_card {A : Nat → Nat → Bool} {x : List Nat} (hn : x.Nodup) (v : Nat) :
    inducedDegree A x v = (x.toFinset.filter (fun u => A v u = true)).card := by
  unfold inducedDegree
  rw [← List.toFinset_card_of_nodup (hn.filter _), List.toFinset_filter]

theorem degree_relabel (A : Nat → Nat → Bool) (π : Equiv.Perm ℕ) (S : Finset Nat) (v : Nat) :
    inducedDegree (fun i j => A (π i) (π j)) (S.sort (· ≤ ·)) v
      = inducedDegree A ((S.image π).sort (· ≤ ·)) (π v) := by
  rw [inducedDegree_eq_card (Finset.sort_nodup _ _) v,
    inducedDegree_eq_card (Finset.sort_nodup _ _) (π v),
    Finset.sort_toFinset, Finset.sort_toFinset, Finset.filter_image,
    Finset.card_image_of_injective _ π.injective]

theorem sigOf_relabel (A : Nat → Nat → Bool) (π : Equiv.Perm ℕ) (S : Finset Nat) :
    sigOf (fun i j => A (π i) (π j)) S = sigOf A (S.image π) := by
  unfold sigOf signature
  have hperm :
      ((S.sort (· ≤ ·)).map (inducedDegree (fun i j => A (π i) (π j)) (S.sort (· ≤ ·)))).Perm
        (((S.image π).sort (· ≤ ·)).map
          (inducedDegree A ((S.image π).sort (· ≤ ·)))) := by
    apply Multiset.coe_eq_coe.mp
    rw [← Multiset.map_coe, ← Multiset.map_coe, Finset.sort_eq, Finset.sort_eq,
      Finset.image_val_of_injOn (π.injective.injOn), Multiset.map_map]
    exact Multiset.map_congr rfl (fun v _ => degree_relabel A π S v)
  have hs : ((S.sort (· ≤ ·)).map
        (inducedDegree (fun i j => A (π i) (π j)) (S.sort (· ≤ ·)))).insertionSort (· ≤ ·)
      = (((S.image π).sort (· ≤ ·)).map
        (inducedDegree A ((S.image π).sort (· ≤ ·)))).insertionSort (· ≤ ·) :=
    List.eq_of_perm_of_sorted
      (((List.perm_insertionSort _ _).trans hperm).trans (List.perm_insertionSort _ _).symm)
      (List.sorted_insertionSort _ _) (List.sorted_insertionSort _ _)
  rw [hs]

/-- C5: motif class counts are invariant under vertex relabeling. -/
theorem C5_relabel_invariance (A : Nat → Nat → Bool) (M N : Nat)
    (hsym : ∀ i j, i < M → j < M → A i j = A j i) (hN : N = 3 ∨ N = 4)
    (π : Equiv.Perm ℕ) (hπ : ∀ i, i < M ↔ π i < M) (s : String) :
    classCount (fun i j => A (π i) (π j)) M N s = classCount A M N s := by
  have hsymB : ∀ i j, i < M → j < M → A (π i) (π j) = A (π j) (π i) := fun i j hi hj =>
    hsym (π i) (π j) ((hπ i).mp hi) ((hπ j).mp hj)
  rw [classCount_eq hsymB hN s, classCount_eq hsym hN s]
  apply Finset.card_bij (fun S _ => S.image π)
  · intro S hS
    rw [Finset.mem_filter, mem_connSubsets] at hS ⊢
    obtain ⟨⟨hsub, hcard, hconn⟩, hsig⟩ := hS
    refine ⟨⟨?_, ?_, isConn_relabel A π S hconn⟩, ?_⟩
    · intro x hx
      obtain ⟨y, hy, rfl⟩ := Finset.mem_image.mp hx
      exact Finset.mem_range.mpr ((hπ y).mp (Finset.mem_range.mp (hsub hy)))
    · rw [Finset.card_image_of_injective _ π.injective, hcard]
    · rw [← sigOf_relabel A π S]
      exact hsig
  · intro S1 h1 S2 h2 heq
    have h3 := congrArg (Finset.image (π.symm : ℕ → ℕ)) heq
    rwa [image_image_symm, image_image_symm] at h3
  · intro T hT
    refine ⟨T.image π.symm, ?_, image_symm_image π T⟩
    rw [Finset.mem_filter, mem_connSubsets] at hT ⊢
    obtain ⟨⟨hsub, hcard, hconn⟩, hsig⟩ := hT
    refine ⟨⟨?_, ?_, ?_⟩, ?_⟩
    · intro x hx
      obtain ⟨y, hy, rfl⟩ := Finset.mem_image.mp hx
      have h3 := hπ (π.symm y)
      rw [Equiv.apply_symm_apply] at h3
      exact Finset.mem_range.mpr (h3.mpr (Finset.mem_range.mp (hsub hy)))
    · rw [Finset.card_image_of_injective _ π.symm.injective, hcard]
    · rw [isConn_relabel_iff A π (T.image π.symm), image_symm_image π T]
      exact hconn
    · rw [sigOf_relabel A π (T.image π.symm), image_symm_image π T]
      exact hsig

/-- Witness for C5: the path graph 0–1–2 relabeled by the transposition (0 1). -/
theorem C5_relabel_invariance_witness :
    classCount (fun i j => pathA (Equiv.swap 0 1 i) (Equiv.swap 0 1 j)) 3 3 "112"
      = classCount pathA 3 3 "112" := by
  apply C5_relabel_invariance pathA 3 3
    (fun i j _ _ => by unfold pathA; rw [Nat.add_comm]) (Or.inl rfl) (Equiv.swap 0 1)
  intro i
  by_cases h0 : i = 0
  · subst h0
    rw [Equiv.swap_apply_left]
    constructor <;> intro <;> omega
  · by_cases h1 : i = 1
    · subst h1
      rw [Equiv.swap_apply_right]
      constructor <;> intro <;> omega
    · rw [Equiv.swap_apply_of_ne_of_ne (by exact_mod_cast h0) (by exact_mod_cast h1)]

theorem svLE_total {α : Type} (cols : List ((α → ℚ) × Bool)) (a b : α) :
    svLE cols a b = true ∨ svLE cols b a = true := by
  induction cols with
  | nil => exact Or.inl rfl
  | cons p rest ih =>
    obtain ⟨f, asc⟩ := p
    by_cases h : f a = f b
    · rw [svLE, if_pos h, svLE, if_pos h.symm]
      exact ih
    · rcases lt_or_gt_of_ne h with hlt | hgt
      · cases asc
        · right
          rw [svLE, if_neg (Ne.symm h)]
          simpa using hlt
        · left
          rw [svLE, if_neg h]
          simpa using hlt
      · cases asc
        · left
          rw [svLE, if_neg h]
          simpa using hgt
        · right
          rw [svLE, if_neg (Ne.symm h)]
          simpa using hgt

theorem svLE_trans {α : Type} (cols : List ((α → ℚ) × Bool)) (a b c : α)
    (h1 : svLE cols a b = true) (h2 : svLE cols b c = true) : svLE cols a c = true := by
  induction cols with
  | nil => rfl
  | cons p rest ih =>
    obtain ⟨f, asc⟩ := p
    by_cases hab : f a = f b <;> by_cases hbc : f b = f c
    · rw [svLE, if_pos hab] at h1
      rw [svLE, if_pos hbc] at h2
      rw [svLE, if_pos (hab.trans hbc)]
      exact ih h1 h2
    · rw [svLE, if_neg hbc] at h2
      rw [svLE, if_neg (fun h => hbc (hab.symm.trans h))]
      rw [hab]
      exact h2
    · rw [svLE, if_neg hab] at h1
      rw [svLE, if_neg (fun h => hab (h.trans hbc.symm))]
      rw [← hbc]
      exact h1
    · rw [svLE, if_neg hab] at h1
      rw [svLE, if_neg hbc] at h2
      cases asc
      · simp only [Bool.false_eq_true, if_false, decide_eq_true_eq] at h1 h2
        have hca : f c < f a := h2.trans h1
        rw [svLE, if_neg (fun h => absurd (h ▸ hca) (lt_irrefl _))]
        simpa using hca
      · simp only [if_true, decide_eq_true_eq] at h1 h2
        have hac : f a < f c := h1.trans h2
        rw [svLE, if_neg (fun h => absurd (h ▸ hac) (lt_irrefl _))]
        simpa using hac

/-- C2 counterexample: with two candidates tied on motif distance and
differing on the edge cosine distance, the source's ordering
(`ascending=[True, True, ...]`, cosine ascending) and the ordering stated by
the claim (cosine descending) disagree. -/
theorem C2_ranking_cex :
    rankRows [rowCosOf 0 1, rowCosOf 0 2] = [rowCosOf 0 1, rowCosOf 0 2] ∧
      List.insertionSort (rowRel claimCols) [rowCosOf 0 1, rowCosOf 0 2]
        = [rowCosOf 0 2, rowCosOf 0 1] ∧
      svLE sortCols (rowCosOf 0 1) (rowCosOf 0 2) = true ∧
      svLE claimCols (rowCosOf 0 1) (rowCosOf 0 2) = false := by decide

/-- C2 (amended): `compare_motifs` ranks candidates by the composite key with
the edge cosine distance ASCENDING (and the remaining fields as the claim
lists them): the ranked list is a permutation of the candidates sorted by
that key. -/
theorem C2_ranking_amended (rows : List MotifRow) :
    (rankRows rows).Perm rows ∧ (rankRows rows).Sorted (rowRel amendedCols) := by
  constructor
  · exact List.perm_insertionSort _ rows
  · show (rankRows rows).Sorted (rowRel sortCols)
    haveI : IsTotal MotifRow (rowRel sortCols) := ⟨fun a b => svLE_total sortCols a b⟩
    haveI : IsTrans MotifRow (rowRel sortCols) :=
      ⟨fun a b c h1 h2 => svLE_trans sortCols a b c h1 h2⟩
    exact List.sorted_insertionSort _ rows

/-- C7: after the NaN drop and the all-zero-row drop, exactly
`⌊0.25 · n⌋` of the `n` surviving candidates are retained; with fewer than 4
survivors nothing is retained and both returned mappings are empty. -/
theorem C7_quartile_cut (cs : List Cand) (fm sm : Nat → Nat → ℚ) (n : Nat) :
    (retainedCands cs).length = (survivors cs).length / 4 ∧
      ((survivors cs).length < 4 →
        retainedCands cs = [] ∧
        compareLoop fm sm n ((retainedCands cs).map (fun c => (c.key, c.thr)))
          = ([], [])) := by
  have hlen : (rankCands (survivors cs)).length = (survivors cs).length :=
    (List.perm_insertionSort _ _).length_eq
  constructor
  · rw [retainedCands, List.length_take, hlen]
    exact min_eq_left (Nat.div_le_self _ 4)
  · intro h4
    have h0 : (survivors cs).length / 4 = 0 := Nat.div_eq_of_lt h4
    have hr : retainedCands cs = [] := by
      rw [retainedCands, h0, List.take_zero]
    exact ⟨hr, by rw [hr]; rfl⟩

/-- Witness for C7: three surviving candidates, nothing retained. -/
theorem C7_quartile_cut_witness :
    (survivors candsEx).length < 4 ∧
      (retainedCands candsEx = [] ∧
        compareLoop zeroMat zeroMat 2 ((retainedCands candsEx).map (fun c => (c.key, c.thr)))
          = ([], [])) :=
  ⟨by decide, (C7_quartile_cut candsEx zeroMat zeroMat 2).2 (by decide)⟩

/-- C4: evaluating the output loop at one retained candidate (threshold 3 on
a matrix whose only weight is 2): `g_dict` holds the thresholded copies (the
weight-2 entry zeroed), but the multiplex graph is built from the
unthresholded matrices, whose weight-2 entry survives in both layers —
contradicting the claim that the multiplex graph is constructed from the
zero-below-threshold copies. -/
theorem C4_multigraph_eval :
    ((compareLoop twoMat twoMat 2 [("thr-3.0", 3)]).1.map
        (fun p => p.2.layer2 0 1)) = [2] ∧
      ((compareLoop twoMat twoMat 2 [("thr-3.0", 3)]).1.map
        (fun p => p.2.layer1 0 1)) = [2] ∧
      ((compareLoop twoMat twoMat 2 [("thr-3.0", 3)]).2.map
        (fun p => p.2.1 0 1)) = [0] ∧
      ((compareLoop twoMat twoMat 2 [("thr-3.0", 3)]).2.map
        (fun p => p.2.2 0 1)) = [0] ∧
      threshBelowZero twoMat 3 0 1 = 0 ∧ twoMat 0 1 = 2 := by decide

/-- C3: evaluating the community selection and masking at a concrete input:
`np.argmax(sims, axis=0)[0]` selects index 0 (the best structural match for
functional community 0 only), although the pair (1, 1) has the strictly
highest similarity; and the `np.equal.outer` mask retains entry (1, 0) even
though vertex 1 is not in the selected structural community and vertex 0 is
not in the selected functional community. -/
theorem C3_selection_eval :
    selIdx simsEx = 0 ∧
      simsEntry simsEx (selIdx simsEx) (selIdx simsEx) = 9 ∧
      simsEntry simsEx 1 1 = 10 ∧
      simsEntry simsEx (selIdx simsEx) (selIdx simsEx) < simsEntry simsEx 1 1 ∧
      (structCommsEx.getD (selIdx simsEx) []).getD 1 false = false ∧
      (funcCommsEx.getD (selIdx simsEx) []).getD 0 false = false ∧
      commMask (structCommsEx.getD (selIdx simsEx) [])
        (funcCommsEx.getD (selIdx simsEx) []) 1 0 = true ∧
      applyCommMask (structCommsEx.getD (selIdx simsEx) [])
        (funcCommsEx.getD (selIdx simsEx) []) (fun _ _ => 5) 1 0 = 5 := by decide

/-- C8 counterexample: the `np.equal.outer` mask applied by `motif_matching`
is not symmetric for distinct membership vectors (here two valid one-community
indicators on three vertices). -/
theorem C8_mask_symm_cex :
    commMask [true, false, false] [false, true, false] 0 2 = false ∧
      commMask [true, false, false] [false, true, false] 2 0 = true := by decide

/-- C8 (amended): the mask is symmetric when the two selected membership
vectors coincide, and re-applying the masking with the same community
assignment leaves the matrices unchanged (idempotence holds unconditionally). -/
theorem C8_mask_amended :
    (∀ (c : List Bool) (i j : Nat), commMask c c i j = commMask c c j i) ∧
      (∀ (sc fc : List Bool) (mat : Nat → Nat → ℚ) (i j : Nat),
        applyCommMask sc fc (applyCommMask sc fc mat) i j = applyCommMask sc fc mat i j) := by
  constructor
  · intro c i j
    unfold commMask
    cases c.getD i false <;> cases c.getD j false <;> rfl
  · intro sc fc mat i j
    simp only [applyCommMask]
    split_ifs <;> rfl

theorem lookup_upsert {V : Type} (k : String) (v : V) (d : List (String × V)) :
    (upsert k v d).lookup k = some v := by
  induction d with
  | nil => simp [upsert, List.lookup]
  | cons kv rest ih =>
    by_cases h : kv.1 = k
    · rw [upsert, if_pos h]
      simp [List.lookup]
    · rw [upsert, if_neg h]
      have hne : (k == kv.1) = false := beq_eq_false_iff_ne.mpr (fun he => h he.symm)
      cases kv with
      | mk k2 v2 =>
        rw [List.lookup]
        simp only at hne
        rw [hne]
        exact ih

theorem upsert_length_le {V : Type} (k : String) (v : V) (d : List (String × V)) :
    (upsert k v d).length ≤ d.length + 1 := by
  induction d with
  | nil => simp [upsert]
  | cons kv rest ih =>
    by_cases h : kv.1 = k
    · rw [upsert, if_pos h]
      simp
    · rw [upsert, if_neg h]
      simp only [List.length_cons]
      omega

theorem sweepDict_length_le {V : Type} (rec : ℚ → V) (thrs : List ℚ) :
    (sweepDict rec thrs).length ≤ thrs.length := by
  suffices h : ∀ acc : List (String × V),
      (thrs.foldl (fun d t => upsert (thrKey t) (rec t) d) acc).length
        ≤ acc.length + thrs.length by
    simpa using h []
  induction thrs with
  | nil => intro acc; simp
  | cons t rest ih =>
    intro acc
    rw [List.foldl_cons]
    calc (rest.foldl (fun d t => upsert (thrKey t) (rec t) d)
          (upsert (thrKey t) (rec t) acc)).length
        ≤ (upsert (thrKey t) (rec t) acc).length + rest.length := ih _
      _ ≤ acc.length + (rest.length + 1) := by
          have h2 := upsert_length_le (thrKey t) (rec t) acc
          omega
      _ = acc.length + (t :: rest).length := by rw [List.length_cons]

theorem sweepDict_append_last {V : Type} (rec : ℚ → V) (thrs : List ℚ) (t : ℚ) :
    (sweepDict rec (thrs ++ [t])).lookup (thrKey t) = some (rec t) := by
  rw [sweepDict, List.foldl_append, List.foldl_cons, List.foldl_nil]
  exact lookup_upsert _ _ _

theorem linspace_length (a b : ℚ) (n : Nat) : (linspace a b n).length = n := by
  rw [linspace, List.length_map, List.length_range]

theorem linspace_const (a : ℚ) (n : Nat) : linspace a a n = List.replicate n a := by
  rw [linspace]
  have h : ∀ i : Nat, a + (a - a) * (i : ℚ) / ((n : ℚ) - 1) = a := by
    intro i
    rw [sub_self, zero_mul, zero_div, add_zero]
  calc (List.range n).map (fun (i : Nat) => a + (a - a) * (i : ℚ) / ((n : ℚ) - 1))
      = (List.range n).map (fun _ => a) := List.map_congr_left (fun i _ => h i)
    _ = List.replicate n a := by rw [List.map_const', List.length_range]

theorem sweepDict_replicate {V : Type} (rec : ℚ → V) (a : ℚ) (n : Nat) (hn : 1 ≤ n) :
    (sweepDict rec (List.replicate n a)).length = 1 := by
  obtain ⟨m, rfl⟩ : ∃ m, n = m + 1 := ⟨n - 1, by omega⟩
  suffices h : ∀ (m : Nat) (v : V),
      ((List.replicate m a).foldl (fun d t => upsert (thrKey t) (rec t) d)
        [(thrKey a, v)]).length = 1 by
    rw [sweepDict, List.replicate_succ, List.foldl_cons]
    have h0 : upsert (thrKey a) (rec a) ([] : List (String × V)) = [(thrKey a, rec a)] := rfl
    rw [h0]
    exact h m (rec a)
  intro m
  induction m with
  | zero => intro v; rfl
  | succ m ih =>
    intro v
    rw [List.replicate_succ, List.foldl_cons]
    have h1 : upsert (thrKey a) (rec a) [(thrKey a, v)] = [(thrKey a, rec a)] := by
      rw [upsert, if_pos rfl]
    rw [h1]
    exact ih (rec a)

/-- C10: sweep records are keyed by `'thr-'` plus the threshold rounded to 4
decimals; a later swept threshold with the same key overwrites the earlier
records; the dict never holds more entries than `bins`; and when the
functional matrix's minimum equals its maximum the whole `linspace` sweep
collapses onto one single candidate key. -/
theorem C10_threshold_keys {V : Type} (rec : ℚ → V) (a b : ℚ) (n : Nat) (hn : 1 ≤ n) :
    (∀ t : ℚ, thrKey t = "thr-" ++ toString (round4 t)) ∧
      (∀ (thrs : List ℚ) (t1 t2 : ℚ), thrKey t1 = thrKey t2 →
        (sweepDict rec (thrs ++ [t2])).lookup (thrKey t1) = some (rec t2)) ∧
      (sweepDict rec (linspace a b n)).length ≤ n ∧
      (sweepDict rec (linspace a a n)).length = 1 := by
  refine ⟨fun t => rfl, ?_, ?_, ?_⟩
  · intro thrs t1 t2 hcol
    rw [hcol]
    exact sweepDict_append_last rec thrs t2
  · have h := sweepDict_length_le rec (linspace a b n)
    rwa [linspace_length] at h
  · rw [linspace_const]
    exact sweepDict_replicate rec a n hn

/-- Witness for C10 with a 20-bin sweep over a degenerate (min = max) range. -/
theorem C10_threshold_keys_witness :
    1 ≤ 20 ∧ (1 < 20 ∧
      ((∀ t : ℚ, thrKey t = "thr-" ++ toString (round4 t)) ∧
        (∀ (thrs : List ℚ) (t1 t2 : ℚ), thrKey t1 = thrKey t2 →
          (sweepDict (fun q : ℚ => q) (thrs ++ [t2])).lookup (thrKey t1) = some t2) ∧
        (sweepDict (fun q : ℚ => q) (linspace 0 1 20)).length ≤ 20 ∧
        (sweepDict (fun q : ℚ => q) (linspace 0 0 20)).length = 1)) :=
  ⟨by decide, by decide, C10_threshold_keys (fun q : ℚ => q) 0 1 20 (by decide)⟩

end NetMotifs
